import Mathlib

set_option maxHeartbeats 1000000
set_option autoImplicit false

namespace Labels

/-! Shallow embedding of src/labels.py, a CSV-deduplicating label generator.
Strings are modelled as lists of characters so that the Python string
operations (lower, strip, split) become ordinary list functions. -/

/-- A cell value coming out of the CSV: missing (pandas NaN), text, or an
integer. Floating point cell values are outside the embedding. -/
inductive Val where
  | na : Val
  | str : List Char → Val
  | int : Int → Val
deriving DecidableEq

/-- One catalog row with the three semantic fields the program reads. -/
structure Row where
  Magazine : Val
  Edition : Val
  Year : Val
deriving DecidableEq

/-- Python str() rendering of a cell value; str casts numbers to their
decimal text form. -/
def pyRepr : Val → List Char
  | .na => []
  | .str s => s
  | .int n => (toString n).toList

/-- Whitespace test used by the Python strip embedding. -/
def wsChar (c : Char) : Bool := c.isWhitespace

/-- Python str.lower, mapping each character to lower case. -/
def pyLower (s : List Char) : List Char := s.map Char.toLower

/-- Python str.strip: remove leading and trailing whitespace. -/
def pyStrip (s : List Char) : List Char :=
  ((s.dropWhile wsChar).reverse.dropWhile wsChar).reverse

/-- Embeds norm (src/labels.py lines 15-18): a missing value becomes the
empty string, anything else is cast to text, lowercased, then stripped. -/
def norm (v : Val) : List Char :=
  match v with
  | .na => []
  | v => pyStrip (pyLower (pyRepr v))

/-- Embeds row_to_string (lines 21-26): the canonical key joins the three
normalized fields with a pipe character. -/
def row_to_string (r : Row) : List Char :=
  norm r.Magazine ++ '|' :: norm r.Edition ++ '|' :: norm r.Year

/-- Embeds hash_row (lines 28-30). The SHA-256 hex digest of the UTF-8
encoded canonical key is modelled by a digest function H on canonical keys;
every theorem below quantifies over H, so it holds for the real digest in
particular. -/
def hash_row (H : List Char → String) (r : Row) : String :=
  H (row_to_string r)

/-- Embeds hash_file_for_mode (lines 33-34). -/
def hash_file_for_mode (mode : String) : String :=
  "printed_" ++ mode ++ ".hashes"

/-- Python iteration over the lines of an open text file: pieces split at
newline, the empty piece after a final newline not being yielded. -/
def pyLines (content : List Char) : List (List Char) :=
  let parts := content.splitOn '\n'
  if parts.getLast? = some [] then parts.dropLast else parts

/-- Embeds load_hashes (lines 37-42). The file argument is the content of
printed_mode.hashes, or none when os.path.exists is false; each line is
stripped and collected into a set. -/
def load_hashes (file : Option (List Char)) : Finset String :=
  match file with
  | none => (∅ : Finset String)
  | some content => ((pyLines content).map (fun l => String.mk (pyStrip l))).toFinset

/-- The successive chunks save_hashes (lines 45-49) writes into the opened
file: one line per hash, in sorted order. -/
def saveWrites (hashes : Finset String) : List (List Char) :=
  (hashes.sort (· ≤ ·)).map (fun h => h.data ++ ['\n'])

/-- The full file content save_hashes leaves behind on completion. -/
def save_file_content (hashes : Finset String) : List Char :=
  (saveWrites hashes).flatten

/-- Seen-set file state when a run is interrupted after k steps of
save_hashes: step 0 is before the open call (file untouched), step 1 is just
after open(path, "w") truncated the file, and step 1 + j is after j line
writes have been flushed. -/
def save_interrupted (prior : List Char) (hashes : Finset String) (k : Nat) : List Char :=
  if k = 0 then prior else ((saveWrites hashes).take (k - 1)).flatten

/-- One step of the filter_new loop (lines 57-61): exactly as in the source,
the membership test is against known, the set loaded from disk, not against
the accumulated running set new_hashes. -/
def filter_step (H : List Char → String) (known : Finset String)
    (acc : List Row × Finset String) (row : Row) : List Row × Finset String :=
  if hash_row H row ∉ known then (acc.1 ++ [row], insert (hash_row H row) acc.2) else acc

/-- Embeds filter_new (lines 52-63). known is the set load_hashes returned
for the mode; the result is (new_rows, new_hashes). -/
def filter_new (H : List Char → String) (known : Finset String) (rows : List Row) :
    List Row × Finset String :=
  rows.foldl (filter_step H known) ([], known)

/-- Errors the embedded Python code can raise. zeroDivisionError is what the
interpreter raises for a modulo by zero. configError never arises from the
code; the constructor is modelled from the spec wording (a reported
configuration error) so that the spec behaviour can be compared with the
code behaviour. -/
inductive PyErr where
  | zeroDivisionError : PyErr
  | configError : PyErr
deriving DecidableEq

/-- One placed label: grid column, grid row within the page, and the catalog
row (rowData) whose two text lines the cell shows. The point coordinates and the text
rendering are delegated to the PDF library and not modelled. -/
structure Cell where
  col : Nat
  row_i : Nat
  rowData : Row
deriving DecidableEq

/-- Embeds the draw loop of generate_labels (lines 176-211) together with
the reportlab canvas page list: the state is the placement index i, the
pages already flushed by showPage, and the cells drawn on the current page.
Python raises ZeroDivisionError at i % cols, respectively at
(i // cols) % rows_per_page, when the divisor is zero. -/
def drawLabels (cols rpp : Nat) : Nat → List (List Cell) → List Cell → List Row →
    Except PyErr (List (List Cell) × List Cell)
  | _, pages, cur, [] => .ok (pages, cur)
  | i, pages, cur, row :: rest =>
    if cols = 0 then .error .zeroDivisionError
    else if rpp = 0 then .error .zeroDivisionError
    else if (i + 1) % (cols * rpp) = 0 then
      drawLabels cols rpp (i + 1) (pages ++ [cur ++ [⟨i % cols, (i / cols) % rpp, row⟩]]) [] rest
    else
      drawLabels cols rpp (i + 1) pages (cur ++ [⟨i % cols, (i / cols) % rpp, row⟩]) rest

/-- Embeds c.save() (line 213): reportlab emits the current page only when
something was drawn on it since the last showPage, so a trailing empty page
is dropped. -/
def finalPages (pages : List (List Cell)) (cur : List Cell) : List (List Cell) :=
  if cur.isEmpty then pages else pages ++ [cur]

/-- Embeds generate_labels (lines 68-213) as a function of the grid
dimensions cols and rows_per_page that lines 112-113 compute from the page
geometry of the active mode, returning the pages of the written document. -/
def generate_labels (cols rpp : Nat) (rows : List Row) : Except PyErr (List (List Cell)) :=
  match drawLabels cols rpp 0 [] [] rows with
  | .error e => .error e
  | .ok (pages, cur) => .ok (finalPages pages cur)

/-- Reference list of cells: the j-th row of the list is placed with
placement index i + j using the formulas of lines 178-179. -/
def cellsFrom (cols rpp : Nat) : Nat → List Row → List Cell
  | _, [] => []
  | i, row :: rest => ⟨i % cols, (i / cols) % rpp, row⟩ :: cellsFrom cols rpp (i + 1) rest

/-- Looks up the cell holding placement index i in a page list whose pages
hold N cells each: page i / N, offset i % N. -/
def cellAt (N : Nat) (pages : List (List Cell)) (i : Nat) : Option Cell :=
  (pages.get? (i / N)).bind (fun p => p.get? (i % N))

/-- Every page of the document holds at least one label. -/
def pagesNonempty (pages : List (List Cell)) : Bool := pages.all (fun p => !p.isEmpty)

/-- Every page of the document except possibly the last one is exactly
full. -/
def pagesFullButLast (N : Nat) (pages : List (List Cell)) : Bool :=
  pages.dropLast.all (fun p => p.length == N)

/-- Observable file-system and console effects of the orchestration. -/
inductive Effect where
  | writeDoc : String → List (List Cell) → Effect
  | writeSeen : String → List Char → Effect
  | printMsg : String → Effect
deriving DecidableEq

/-- Embeds the module tail (lines 239-244) from the point where filter_new
has returned: on zero new rows only a message is printed; otherwise
generate_labels runs (writing labels_mode.pdf at its save call) and only
after it returns does save_hashes rewrite printed_mode.hashes; an exception
in generate_labels propagates, so no file effect happens at all. -/
def run_tail (cols rpp : Nat) (mode : String) (new_rows : List Row)
    (new_hashes : Finset String) : List Effect :=
  if new_rows.length = 0 then [.printMsg "No new labels."]
  else
    match generate_labels cols rpp new_rows with
    | .error _ => []
    | .ok pages =>
      [.writeDoc ("labels_" ++ mode ++ ".pdf") pages,
       .writeSeen (hash_file_for_mode mode) (save_file_content new_hashes),
       .printMsg ("Generated " ++ toString new_rows.length ++ " " ++ mode ++ " labels.")]

/-- Digit-string value, used by the spec-side numeric reading. -/
def natOfDigits (l : List Char) : Nat := l.foldl (fun a c => a * 10 + (c.toNat - 48)) 0

/-- Modelled from the spec: reads a text as a number when it is a digit run
optionally followed by a decimal point and zeros, so that different numeric
formattings of the same value (12, 012, 12.0, 12.00) read equal. -/
def readNum (l : List Char) : Option Nat :=
  let p := l.span Char.isDigit
  if p.1.isEmpty then none
  else
    match p.2 with
    | [] => some (natOfDigits p.1)
    | c :: fs =>
      if (c == '.') && (!fs.isEmpty) && fs.all (· == '0') then some (natOfDigits p.1)
      else none

/-- Modelled from the spec: two field values are the same up to letter case,
surrounding whitespace, missing-versus-empty fields, and numeric formatting,
when they agree under the normalization of the code, or when both read as
numbers and the numbers are equal although formatted differently. -/
def specSameField (a b : Val) : Bool :=
  (norm a == norm b) ||
    (match readNum (pyStrip (pyRepr a)), readNum (pyStrip (pyRepr b)) with
     | some m, some n => m == n
     | _, _ => false)

/-- Modelled from the spec: fieldwise sameness of two records, as in the C2
claim wording. -/
def specSameRecord (r s : Row) : Bool :=
  specSameField r.Magazine s.Magazine && specSameField r.Edition s.Edition &&
    specSameField r.Year s.Year

/-- A text consisting of whitespace only. -/
def AllWS (l : List Char) : Bool := l.all wsChar

/-- Case equivalence of two texts: lowercasing maps them to the same text. -/
def caseEq (s t : List Char) : Prop := s.map Char.toLower = t.map Char.toLower

/-- Texts equal up to letter case and surrounding whitespace: each is some
whitespace padding around a core, and the cores agree up to case. -/
def StrPadCase (a b : List Char) : Prop :=
  ∃ l₁ s₁ r₁ l₂ s₂ r₂, a = l₁ ++ s₁ ++ r₁ ∧ b = l₂ ++ s₂ ++ r₂ ∧
    AllWS l₁ = true ∧ AllWS r₁ = true ∧ AllWS l₂ = true ∧ AllWS r₂ = true ∧ caseEq s₁ s₂

/-- Fields identical up to letter case, surrounding whitespace, missing
versus blank text, and an integer versus the decimal text of that integer. -/
def FieldEquiv : Val → Val → Prop
  | .str a, .str b => StrPadCase a b
  | .na, .str b => AllWS b = true
  | .str a, .na => AllWS a = true
  | .na, .na => True
  | .int m, .int n => m = n
  | .int n, .str b => StrPadCase ((toString n).toList) b
  | .str a, .int n => StrPadCase a ((toString n).toList)
  | .int _, .na => False
  | .na, .int _ => False

/-- Fieldwise equivalence of two records. -/
def RecordEquiv (r s : Row) : Prop :=
  FieldEquiv r.Magazine s.Magazine ∧ FieldEquiv r.Edition s.Edition ∧
    FieldEquiv r.Year s.Year

/-- Computable initial-segment test on texts. -/
def startsWith : List Char → List Char → Bool
  | [], _ => true
  | _ :: _, [] => false
  | a :: as, b :: bs => a == b && startsWith as bs

/-- First row of the duplicate scenario from the spec. -/
def rowVogueA : Row := ⟨.str "Vogue".toList, .str "12".toList, .str "2023".toList⟩

/-- Second row of the duplicate scenario: same record up to case and
whitespace. -/
def rowVogueB : Row := ⟨.str "vogue".toList, .str " 12 ".toList, .str "2023".toList⟩

/-- A row differing from rowVogueA only in the numeric formatting of the
Edition field. -/
def rowNumB : Row := ⟨.str "Vogue".toList, .str "12.0".toList, .str "2023".toList⟩

/-- A plain sample row for layout scenarios. -/
def sampleRow : Row := ⟨.str "m".toList, .str "e".toList, .str "y".toList⟩

/-! Theorems. -/

theorem foldl_filter_fst (H : List Char → String) (known : Finset String) :
    ∀ (rows : List Row) (L : List Row) (S : Finset String),
      (rows.foldl (filter_step H known) (L, S)).1
        = L ++ rows.filter (fun r => decide (hash_row H r ∉ known)) := by
  intro rows
  induction rows with
  | nil => intro L S; simp
  | cons r rs ih =>
    intro L S
    by_cases h : hash_row H r ∉ known
    · simp only [List.foldl_cons, filter_step, if_pos h, List.filter_cons]
      rw [ih]
      simp [h]
    · simp only [List.foldl_cons, filter_step, if_neg h, List.filter_cons]
      rw [ih]
      simp [h]

theorem foldl_filter_snd (H : List Char → String) (known : Finset String) :
    ∀ (rows : List Row) (L : List Row) (S : Finset String), known ⊆ S →
      (rows.foldl (filter_step H known) (L, S)).2
        = S ∪ (rows.map (hash_row H)).toFinset := by
  intro rows
  induction rows with
  | nil => intro L S _; simp
  | cons r rs ih =>
    intro L S hsub
    by_cases h : hash_row H r ∉ known
    · simp only [List.foldl_cons, filter_step, if_pos h]
      rw [ih _ _ (hsub.trans (Finset.subset_insert _ _))]
      simp only [List.map_cons, List.toFinset_cons]
      rw [Finset.insert_union, Finset.union_insert]
    · simp only [List.foldl_cons, filter_step, if_neg h]
      rw [ih _ _ hsub]
      simp only [List.map_cons, List.toFinset_cons]
      rw [Finset.union_insert]
      exact (Finset.insert_eq_self.mpr (Finset.mem_union_left _ (hsub (not_not.mp h)))).symm

/-- C1: the source checks each hash against the set loaded from disk only,
never against the hashes accepted earlier in the same run, so the two rows
of the spec scenario, which share one canonical key, are both emitted: the
claim (exactly one new record) fails on the code. -/
theorem claim_C1 (H : List Char → String) :
    (filter_new H ∅ [rowVogueA, rowVogueB]).1 = [rowVogueA, rowVogueB]
    ∧ hash_row H rowVogueA = hash_row H rowVogueB := by
  refine ⟨?_, congrArg H (by decide)⟩
  simp [filter_new, filter_step]

/-- C8: the new-records sequence returned by filter_new is the subsequence
of the input rows whose hash is not already known, in input order. -/
theorem claim_C8 (H : List Char → String) (known : Finset String) (rows : List Row) :
    (filter_new H known rows).1 = rows.filter (fun r => decide (hash_row H r ∉ known))
    ∧ List.Sublist (filter_new H known rows).1 rows := by
  have h := foldl_filter_fst H known rows [] known
  have h1 : (filter_new H known rows).1
      = rows.filter (fun r => decide (hash_row H r ∉ known)) := by
    simpa [filter_new] using h
  exact ⟨h1, h1 ▸ List.filter_sublist rows⟩

/-- C10: the hash set returned by filter_new is exactly the prior set united
with the hashes of all input rows, so the prior set is always contained in
the returned set. -/
theorem claim_C10 (H : List Char → String) (known : Finset String) (rows : List Row) :
    (filter_new H known rows).2 = known ∪ (rows.map (hash_row H)).toFinset
    ∧ known ⊆ (filter_new H known rows).2 := by
  have h : (filter_new H known rows).2 = known ∪ (rows.map (hash_row H)).toFinset := by
    simpa [filter_new] using foldl_filter_snd H known rows [] known (Finset.Subset.refl _)
  exact ⟨h, h ▸ Finset.subset_union_left⟩

/-- C9: when no persisted state file exists, load_hashes returns the empty
set without raising, and filtering against it behaves exactly as filtering
against a never-seen-anything set. -/
theorem claim_C9 :
    load_hashes none = (∅ : Finset String)
    ∧ ∀ (H : List Char → String) (rows : List Row),
        filter_new H (load_hashes none) rows = filter_new H ∅ rows :=
  ⟨rfl, fun _ _ => rfl⟩

/-- C2 counterexample: the two records agree up to numeric formatting of the
Edition field (12 versus 12.0) in the sense the spec words describe, yet
their canonical keys differ, so the claim as stated fails on the code. -/
theorem claim_C2_counterexample :
    specSameRecord rowVogueA rowNumB = true
    ∧ row_to_string rowVogueA ≠ row_to_string rowNumB := by
  exact ⟨by decide, by decide⟩

theorem startsWith_self_append : ∀ (a t : List Char), startsWith a (a ++ t) = true := by
  intro a
  induction a with
  | nil => intro t; rfl
  | cons c cs ih => intro t; simp [startsWith, ih]

theorem flatten_take_pref (l : List (List Char)) (m : Nat) :
    startsWith (l.take m).flatten l.flatten = true := by
  rw [show l.flatten = (l.take m).flatten ++ (l.drop m).flatten from by
    rw [← List.flatten_append, List.take_append_drop]]
  exact startsWith_self_append _ _

/-- C6 counterexample: save_hashes truncates the target file in place, so a
run interrupted right after the open call leaves an empty file that is
neither the prior content nor the fully rewritten content: the write is not
atomic. -/
theorem claim_C6_counterexample :
    save_interrupted "aaa\n".toList {"aaa", "bbb"} 1 ≠ "aaa\n".toList
    ∧ save_interrupted "aaa\n".toList {"aaa", "bbb"} 1 ≠ save_file_content {"aaa", "bbb"} := by
  have h1 : save_interrupted "aaa\n".toList {"aaa", "bbb"} 1 = [] := by
    simp [save_interrupted]
  have h2 : save_file_content ({"aaa", "bbb"} : Finset String) = "aaa\nbbb\n".toList := by
    unfold save_file_content saveWrites
    rw [Finset.sort_insert, Finset.sort_singleton]
    · decide
    · intro b hb
      rw [Finset.mem_singleton.mp hb]
      exact String.le_iff_toList_le.mpr (by decide)
    · decide
  constructor
  · rw [h1]; decide
  · rw [h1, h2]; decide

/-- C6 amended: an interrupted run leaves the seen-set file either untouched
(interruption before the open call) or holding a prefix of the rewritten
content, the complete prefix only when every line write finished; partial
and truncated states are reachable because the file is rewritten in place. -/
theorem claim_C6_amended (prior : List Char) (hashes : Finset String) (k : Nat) :
    save_interrupted prior hashes k = prior
    ∨ startsWith (save_interrupted prior hashes k) (save_file_content hashes) = true := by
  by_cases hk : k = 0
  · left
    simp [save_interrupted, hk]
  · right
    simp only [save_interrupted, if_neg hk, save_file_content]
    exact flatten_take_pref _ _

theorem mod_succ_eq_zero {N i : Nat} (hN : 0 < N) (h : (i + 1) % N = 0) :
    i % N + 1 = N := by
  have hr : i % N < N := Nat.mod_lt _ hN
  have hdvd : N ∣ i + 1 := Nat.dvd_of_mod_eq_zero h
  have hdec : N * (i / N) + i % N = i := Nat.div_add_mod i N
  have h3 : i + 1 = N * (i / N) + (i % N + 1) := by omega
  have h4 : N ∣ N * (i / N) := Dvd.intro _ rfl
  have h2 : N ∣ i % N + 1 := (Nat.dvd_add_right h4).mp (h3 ▸ hdvd)
  have h5 : N ≤ i % N + 1 := Nat.le_of_dvd (Nat.succ_pos _) h2
  omega

theorem div_succ_of_mod {N i : Nat} (hN : 0 < N) (h : (i + 1) % N = 0) :
    (i + 1) / N = i / N + 1 := by
  have h1 := mod_succ_eq_zero hN h
  have hdec : N * (i / N) + i % N = i := Nat.div_add_mod i N
  have h2 : i + 1 = N * (i / N + 1) := by rw [Nat.mul_add, Nat.mul_one]; omega
  rw [h2, Nat.mul_div_cancel_left _ hN]

theorem mod_succ_ne {N i : Nat} (hN : 0 < N) (h : (i + 1) % N ≠ 0) :
    (i + 1) % N = i % N + 1 ∧ (i + 1) / N = i / N := by
  have hr : i % N < N := Nat.mod_lt _ hN
  have hdec : N * (i / N) + i % N = i := Nat.div_add_mod i N
  by_cases hc : i % N + 1 = N
  · exfalso
    apply h
    have h2 : i + 1 = N * (i / N + 1) := by rw [Nat.mul_add, Nat.mul_one]; omega
    rw [h2]
    exact Nat.mul_mod_right _ _
  · have hlt : i % N + 1 < N := by omega
    have h2 : i + 1 = N * (i / N) + (i % N + 1) := by omega
    constructor
    · rw [h2, Nat.mul_add_mod, Nat.mod_eq_of_lt hlt]
    · rw [h2, Nat.mul_add_div hN, Nat.div_eq_of_lt hlt, Nat.add_zero]

theorem drawLabels_spec (cols rpp : Nat) (hc : 0 < cols) (hr : 0 < rpp) :
    ∀ (rows : List Row) (i : Nat) (pages : List (List Cell)) (cur : List Cell),
      (∀ p ∈ pages, p.length = cols * rpp) →
      cur.length = i % (cols * rpp) →
      pages.length = i / (cols * rpp) →
      ∃ P C, drawLabels cols rpp i pages cur rows = .ok (P, C)
        ∧ P.flatten ++ C = pages.flatten ++ cur ++ cellsFrom cols rpp i rows
        ∧ (∀ p ∈ P, p.length = cols * rpp)
        ∧ C.length = (i + rows.length) % (cols * rpp)
        ∧ P.length = (i + rows.length) / (cols * rpp) := by
  have hN : 0 < cols * rpp := Nat.mul_pos hc hr
  intro rows
  induction rows with
  | nil =>
    intro i pages cur hp hcur hpl
    exact ⟨pages, cur, rfl, by simp [cellsFrom], hp, by simpa using hcur, by simpa using hpl⟩
  | cons row rest ih =>
    intro i pages cur hp hcur hpl
    have hc0 : ¬cols = 0 := by omega
    have hr0 : ¬rpp = 0 := by omega
    by_cases hmod : (i + 1) % (cols * rpp) = 0
    · have hfull := mod_succ_eq_zero hN hmod
      obtain ⟨P, C, heq, hflat, hP, hC, hPl⟩ :=
        ih (i + 1) (pages ++ [cur ++ [⟨i % cols, (i / cols) % rpp, row⟩]]) []
          (by
            intro p hp'
            rcases List.mem_append.mp hp' with h1 | h2
            · exact hp p h1
            · rw [List.mem_singleton.mp h2]
              simp only [List.length_append, List.length_cons, List.length_nil]
              omega)
          (by simpa using hmod.symm)
          (by
            simp only [List.length_append, List.length_cons, List.length_nil]
            rw [div_succ_of_mod hN hmod, hpl])
      refine ⟨P, C, ?_, ?_, hP, ?_, ?_⟩
      · simp only [drawLabels, if_neg hc0, if_neg hr0, if_pos hmod]
        exact heq
      · rw [hflat]
        simp [cellsFrom, List.flatten_append]
      · rw [hC, List.length_cons, show i + 1 + rest.length = i + (rest.length + 1) from by omega]
      · rw [hPl, List.length_cons, show i + 1 + rest.length = i + (rest.length + 1) from by omega]
    · obtain ⟨hm1, hm2⟩ := mod_succ_ne hN hmod
      obtain ⟨P, C, heq, hflat, hP, hC, hPl⟩ :=
        ih (i + 1) pages (cur ++ [⟨i % cols, (i / cols) % rpp, row⟩]) hp
          (by
            simp only [List.length_append, List.length_cons, List.length_nil]
            omega)
          (by rw [hm2, hpl])
      refine ⟨P, C, ?_, ?_, hP, ?_, ?_⟩
      · simp only [drawLabels, if_neg hc0, if_neg hr0, if_neg hmod]
        exact heq
      · rw [hflat]
        simp [cellsFrom, List.append_assoc]
      · rw [hC, List.length_cons, show i + 1 + rest.length = i + (rest.length + 1) from by omega]
      · rw [hPl, List.length_cons, show i + 1 + rest.length = i + (rest.length + 1) from by omega]

theorem cellsFrom_get (cols rpp : Nat) :
    ∀ (rows : List Row) (i j : Nat),
      (cellsFrom cols rpp i rows).get? j
        = (rows.get? j).map (fun row => (⟨(i + j) % cols, ((i + j) / cols) % rpp, row⟩ : Cell)) := by
  intro rows
  induction rows with
  | nil => intro i j; simp [cellsFrom]
  | cons row rest ih =>
    intro i j
    cases j with
    | zero => simp [cellsFrom]
    | succ j' =>
      simp only [cellsFrom, List.get?_cons_succ]
      rw [ih (i + 1) j', show i + (j' + 1) = i + 1 + j' from by omega]

theorem finalPages_cons (p : List Cell) (P : List (List Cell)) (C : List Cell) :
    finalPages (p :: P) C = p :: finalPages P C := by
  unfold finalPages
  by_cases h : C.isEmpty <;> simp [h]

theorem finalPages_get (N : Nat) :
    ∀ (P : List (List Cell)) (C : List Cell) (q r : Nat),
      (∀ p ∈ P, p.length = N) → C.length ≤ N → r < N →
      ((finalPages P C).get? q).bind (fun p => p.get? r) = (P.flatten ++ C).get? (q * N + r) := by
  intro P
  induction P with
  | nil =>
    intro C q r _ hC hr
    cases C with
    | nil => simp [finalPages]
    | cons c cs =>
      cases q with
      | zero => simp [finalPages]
      | succ q' =>
        have hle : (c :: cs).length ≤ (q' + 1) * N + r := by
          have h1 : N ≤ (q' + 1) * N := Nat.le_mul_of_pos_left N (Nat.succ_pos q')
          omega
        simp only [finalPages, List.isEmpty_cons, Bool.false_eq_true, if_false,
          List.flatten_nil, List.nil_append]
        rw [List.get?_eq_none.mpr hle]
        simp [List.get?]
  | cons p P ihP =>
    intro C q r hP hC hr
    rw [finalPages_cons]
    cases q with
    | zero =>
      have hlen : r < p.length := by rw [hP p (List.mem_cons_self p P)]; exact hr
      simp only [List.get?_cons_zero, Option.some_bind, Nat.zero_mul, Nat.zero_add]
      rw [List.flatten_cons, List.append_assoc, List.get?_append hlen]
    | succ q' =>
      simp only [List.get?_cons_succ]
      rw [ihP C q' r (fun x hx => hP x (List.mem_cons_of_mem _ hx)) hC hr]
      rw [List.flatten_cons, List.append_assoc]
      rw [show (q' + 1) * N + r = p.length + (q' * N + r) from by
        rw [hP p (List.mem_cons_self p P), Nat.succ_mul]; omega]
      rw [List.get?_append_right (Nat.le_add_right _ _)]
      rw [Nat.add_sub_cancel_left]

theorem generate_labels_ok (cols rpp : Nat) (hc : 0 < cols) (hr : 0 < rpp) (rows : List Row) :
    ∃ P C, drawLabels cols rpp 0 [] [] rows = .ok (P, C)
      ∧ generate_labels cols rpp rows = .ok (finalPages P C)
      ∧ P.flatten ++ C = cellsFrom cols rpp 0 rows
      ∧ (∀ p ∈ P, p.length = cols * rpp)
      ∧ C.length = rows.length % (cols * rpp)
      ∧ P.length = rows.length / (cols * rpp) := by
  obtain ⟨P, C, heq, hflat, hP, hC, hPl⟩ := drawLabels_spec cols rpp hc hr rows 0 [] []
    (by intro p hp; simp at hp) (by simp) (by simp)
  exact ⟨P, C, heq, by simp [generate_labels, heq], by simpa using hflat, hP,
    by simpa using hC, by simpa using hPl⟩

/-- C3: each record index i is placed at column i mod cols, row
(i div cols) mod rowsPerPage of page i div (cols times rowsPerPage); with
cols 3 and rowsPerPage 8, 25 records give two pages of 24 and 1 placements,
record 23 sits in the last cell (column 2, row 7) of page 1, and record 24
opens page 2 at column 0, row 0. -/
theorem claim_C3 :
    (∀ (cols rpp : Nat) (rows : List Row) (pages : List (List Cell)) (i : Nat),
        0 < cols → 0 < rpp → generate_labels cols rpp rows = .ok pages → i < rows.length →
        cellAt (cols * rpp) pages i
          = (rows.get? i).map (fun row => (⟨i % cols, (i / cols) % rpp, row⟩ : Cell)))
    ∧ (generate_labels 3 8 (List.replicate 25 sampleRow)).map
        (fun pages =>
          (pages.map List.length, (pages.get? 0).bind (fun p => p.get? 23), pages.get? 1))
        = .ok ([24, 1], some ⟨2, 7, sampleRow⟩, some [⟨0, 0, sampleRow⟩]) := by
  constructor
  · intro cols rpp rows pages i hc hr hok _
    have hN : 0 < cols * rpp := Nat.mul_pos hc hr
    obtain ⟨P, C, hdraw, hgen, hflat, hP, hC, hPl⟩ := generate_labels_ok cols rpp hc hr rows
    have hpages : pages = finalPages P C := Except.ok.inj (hok.symm.trans hgen)
    have hCle : C.length ≤ cols * rpp := by
      rw [hC]
      exact Nat.le_of_lt (Nat.mod_lt _ hN)
    have hrlt : i % (cols * rpp) < cols * rpp := Nat.mod_lt _ hN
    unfold cellAt
    rw [hpages, finalPages_get (cols * rpp) P C (i / (cols * rpp)) (i % (cols * rpp)) hP hCle hrlt]
    rw [hflat, show i / (cols * rpp) * (cols * rpp) + i % (cols * rpp) = i from by
      rw [Nat.mul_comm]
      exact Nat.div_add_mod i (cols * rpp)]
    rw [cellsFrom_get]
    simp
  · rfl

theorem claim_C3_witness :
    cellAt (3 * 8) [[⟨0, 0, sampleRow⟩]] 0 = some ⟨0, 0, sampleRow⟩ :=
  (claim_C3.1 3 8 [sampleRow] [[⟨0, 0, sampleRow⟩]] 0 (by decide) (by decide) rfl
    (by decide)).trans rfl

theorem ceil_div_exact {N n : Nat} (hN : 0 < N) (h : n % N = 0) :
    (n + N - 1) / N = n / N := by
  have hdm : N * (n / N) + n % N = n := Nat.div_add_mod n N
  have h1 : n + N - 1 = N * (n / N) + (N - 1) := by
    revert hdm
    generalize N * (n / N) = m
    intro hdm
    omega
  have h2 : (N - 1) / N = 0 := Nat.div_eq_of_lt (by omega)
  rw [h1, Nat.mul_add_div hN, h2, Nat.add_zero]

theorem ceil_div_inexact {N n : Nat} (hN : 0 < N) (h : n % N ≠ 0) :
    (n + N - 1) / N = n / N + 1 := by
  have hdm : N * (n / N) + n % N = n := Nat.div_add_mod n N
  have hlt : n % N < N := Nat.mod_lt _ hN
  have hx : N * (n / N + 1) = N * (n / N) + N := by
    rw [Nat.mul_add, Nat.mul_one]
  have h1 : n + N - 1 = N * (n / N + 1) + (n % N - 1) := by
    rw [hx]
    revert hdm
    generalize N * (n / N) = m
    intro hdm
    omega
  have h2 : (n % N - 1) / N = 0 := Nat.div_eq_of_lt (by omega)
  rw [h1, Nat.mul_add_div hN, h2, Nat.add_zero]

/-- C4: every emitted page is nonempty and every page except the last is
exactly full, so a page break happens when and only when the placement index
is a multiple of cols times rowsPerPage and another record remains; the page
count is the ceiling of records over page capacity, hence an input that is
an exact multiple of the capacity produces no trailing empty page. -/
theorem claim_C4 (cols rpp : Nat) (rows : List Row) (pages : List (List Cell))
    (hc : 0 < cols) (hr : 0 < rpp)
    (hok : generate_labels cols rpp rows = .ok pages) :
    pages.length = (rows.length + cols * rpp - 1) / (cols * rpp)
    ∧ pagesNonempty pages = true
    ∧ pagesFullButLast (cols * rpp) pages = true := by
  have hN : 0 < cols * rpp := Nat.mul_pos hc hr
  obtain ⟨P, C, hdraw, hgen, hflat, hP, hC, hPl⟩ := generate_labels_ok cols rpp hc hr rows
  have hpages : pages = finalPages P C := Except.ok.inj (hok.symm.trans hgen)
  have hdm : (cols * rpp) * (rows.length / (cols * rpp)) + rows.length % (cols * rpp)
      = rows.length := Nat.div_add_mod _ _
  subst hpages
  by_cases hmod : rows.length % (cols * rpp) = 0
  · have hCnil : C = [] := List.eq_nil_of_length_eq_zero (by rw [hC, hmod])
    have hfp : finalPages P C = P := by rw [hCnil]; rfl
    rw [hfp]
    refine ⟨?_, ?_, ?_⟩
    · rw [ceil_div_exact hN hmod]
      exact hPl
    · apply List.all_eq_true.mpr
      intro p hp'
      have hlen := hP p hp'
      cases p with
      | nil => exfalso; rw [List.length_nil] at hlen; omega
      | cons a l => rfl
    · apply List.all_eq_true.mpr
      intro p hp'
      rw [beq_iff_eq]
      exact hP p (List.dropLast_subset P hp')
  · have hCne : ¬C.isEmpty = true := by
      cases C with
      | nil => exact absurd (by simpa using hC.symm) hmod
      | cons a l => simp
    have hfp : finalPages P C = P ++ [C] := by
      unfold finalPages
      rw [if_neg hCne]
    rw [hfp]
    have hr1 : 1 ≤ rows.length % (cols * rpp) := Nat.pos_of_ne_zero hmod
    have hrlt : rows.length % (cols * rpp) < cols * rpp := Nat.mod_lt _ hN
    refine ⟨?_, ?_, ?_⟩
    · rw [ceil_div_inexact hN hmod]
      simp [List.length_append, hPl]
    · apply List.all_eq_true.mpr
      intro p hp'
      rcases List.mem_append.mp hp' with h1 | h2
      · have hlen := hP p h1
        cases p with
        | nil => exfalso; rw [List.length_nil] at hlen; omega
        | cons a l => rfl
      · rw [List.mem_singleton.mp h2]
        cases C with
        | nil => exact absurd rfl hCne
        | cons a l => rfl
    · unfold pagesFullButLast
      rw [List.dropLast_concat]
      apply List.all_eq_true.mpr
      intro p hp'
      rw [beq_iff_eq]
      exact hP p hp'

theorem claim_C4_witness :
    ([[⟨0, 0, sampleRow⟩, ⟨0, 1, sampleRow⟩]] : List (List Cell)).length
        = (([sampleRow, sampleRow] : List Row).length + 1 * 2 - 1) / (1 * 2)
    ∧ pagesNonempty [[⟨0, 0, sampleRow⟩, ⟨0, 1, sampleRow⟩]] = true
    ∧ pagesFullButLast (1 * 2) [[⟨0, 0, sampleRow⟩, ⟨0, 1, sampleRow⟩]] = true :=
  claim_C4 1 2 [sampleRow, sampleRow] [[⟨0, 0, sampleRow⟩, ⟨0, 1, sampleRow⟩]]
    (by decide) (by decide) rfl

/-- C7 counterexample: with zero columns and a record to place, the code
stops with an uncaught ZeroDivisionError from i % cols; no configuration
error report is produced, so the claim as stated fails on the code. -/
theorem claim_C7_counterexample :
    generate_labels 0 8 [sampleRow] = .error .zeroDivisionError
    ∧ generate_labels 0 8 [sampleRow] ≠ .error .configError :=
  ⟨rfl, fun h => PyErr.noConfusion (Except.error.inj h)⟩

/-- C7 amended: when the grid has zero columns or zero rows per page and at
least one record is to be placed, the run aborts before any page is drawn
and before any file is written, but through an uncaught ZeroDivisionError
rather than a reported configuration error. -/
theorem claim_C7_amended (cols rpp : Nat) (rows : List Row)
    (h0 : cols = 0 ∨ rpp = 0) (hne : rows ≠ []) :
    generate_labels cols rpp rows = .error .zeroDivisionError
    ∧ ∀ (mode : String) (seen : Finset String), run_tail cols rpp mode rows seen = [] := by
  obtain ⟨row, rest, rfl⟩ : ∃ a l, rows = a :: l := by
    cases rows with
    | nil => exact absurd rfl hne
    | cons a l => exact ⟨a, l, rfl⟩
  have hgen : generate_labels cols rpp (row :: rest) = .error .zeroDivisionError := by
    rcases h0 with h | h
    · simp [generate_labels, drawLabels, h]
    · by_cases hcols : cols = 0
      · simp [generate_labels, drawLabels, hcols]
      · simp [generate_labels, drawLabels, hcols, h]
  refine ⟨hgen, fun mode seen => ?_⟩
  simp [run_tail, hgen]

theorem claim_C7_witness :
    generate_labels 0 2 [sampleRow] = .error .zeroDivisionError
    ∧ run_tail 0 2 "clippings" [sampleRow] ∅ = [] :=
  ⟨(claim_C7_amended 0 2 [sampleRow] (Or.inl rfl) (by decide)).1,
   (claim_C7_amended 0 2 [sampleRow] (Or.inl rfl) (by decide)).2 "clippings" ∅⟩

/-- C5: with zero new records the run only prints a message, touching
neither the output document nor the seen-set file; with new records the
seen-set file is rewritten strictly after generate_labels has succeeded and
written the document, and a failure inside generate_labels prevents both
writes. -/
theorem claim_C5 (cols rpp : Nat) (mode : String) (rows : List Row) (seen : Finset String) :
    (rows = [] → run_tail cols rpp mode rows seen = [.printMsg "No new labels."])
    ∧ (∀ pages, rows ≠ [] → generate_labels cols rpp rows = .ok pages →
        run_tail cols rpp mode rows seen
          = [.writeDoc ("labels_" ++ mode ++ ".pdf") pages,
             .writeSeen (hash_file_for_mode mode) (save_file_content seen),
             .printMsg ("Generated " ++ toString rows.length ++ " " ++ mode ++ " labels.")])
    ∧ (∀ e, rows ≠ [] → generate_labels cols rpp rows = .error e →
        run_tail cols rpp mode rows seen = []) := by
  refine ⟨?_, ?_, ?_⟩
  · intro h
    subst h
    rfl
  · intro pages hne hok
    have hlen : rows.length ≠ 0 := fun h => hne (List.eq_nil_of_length_eq_zero h)
    simp [run_tail, hlen, hok]
  · intro e hne herr
    have hlen : rows.length ≠ 0 := fun h => hne (List.eq_nil_of_length_eq_zero h)
    simp [run_tail, hlen, herr]

theorem claim_C5_witness :
    run_tail 3 8 "clippings" [] ∅ = [.printMsg "No new labels."]
    ∧ run_tail 3 8 "clippings" [sampleRow] ∅
        = [.writeDoc "labels_clippings.pdf" [[⟨0, 0, sampleRow⟩]],
           .writeSeen "printed_clippings.hashes" [],
           .printMsg "Generated 1 clippings labels."]
    ∧ run_tail 0 8 "magazines" [sampleRow] ∅ = [] := by
  refine ⟨(claim_C5 3 8 "clippings" [] ∅).1 rfl, ?_,
    (claim_C5 0 8 "magazines" [sampleRow] ∅).2.2 .zeroDivisionError (by decide) rfl⟩
  have h := (claim_C5 3 8 "clippings" [sampleRow] ∅).2.1 [[⟨0, 0, sampleRow⟩]] (by decide) rfl
  rw [h]
  have hsave : save_file_content (∅ : Finset String) = [] := by
    simp [save_file_content, saveWrites, Finset.sort_empty]
  rw [hsave]
  decide

theorem toLower_of_ws {c : Char} (h : wsChar c = true) : c.toLower = c := by
  have h' : ((c = ' ' ∨ c = '\t') ∨ c = '\x0d') ∨ c = '\n' := by
    simpa [wsChar, Char.isWhitespace] using h
  rcases h' with ((rfl | rfl) | rfl) | rfl <;> decide

theorem pyLower_of_ws {l : List Char} (h : AllWS l = true) : pyLower l = l := by
  induction l with
  | nil => rfl
  | cons c cs ih =>
    have hsplit : wsChar c = true ∧ AllWS cs = true := by
      simpa [AllWS, List.all_cons] using h
    obtain ⟨hc, hcs⟩ := hsplit
    have ihc := ih hcs
    simp only [pyLower, List.map_cons] at ihc ⊢
    rw [toLower_of_ws hc, ihc]

theorem allWS_pyLower {l : List Char} (h : AllWS l = true) : AllWS (pyLower l) = true := by
  rw [pyLower_of_ws h]
  exact h

theorem allWS_map_toLower {l : List Char} (h : AllWS l = true) :
    AllWS (List.map Char.toLower l) = true := allWS_pyLower h

theorem allWS_reverse {l : List Char} (h : AllWS l = true) : AllWS l.reverse = true := by
  simp only [AllWS, List.all_eq_true] at h ⊢
  intro c hc
  exact h c (List.mem_reverse.mp hc)

theorem dropWhile_append_ws {l : List Char} (x : List Char) (h : AllWS l = true) :
    (l ++ x).dropWhile wsChar = x.dropWhile wsChar := by
  induction l with
  | nil => rfl
  | cons c cs ih =>
    have hsplit : wsChar c = true ∧ AllWS cs = true := by
      simpa [AllWS, List.all_cons] using h
    rw [List.cons_append, List.dropWhile_cons, if_pos hsplit.1]
    exact ih hsplit.2

theorem dropWhile_eq_nil_of_ws {l : List Char} (h : AllWS l = true) :
    l.dropWhile wsChar = [] := by
  have h1 := dropWhile_append_ws ([] : List Char) h
  simpa using h1

theorem allWS_of_dropWhile_nil : ∀ {l : List Char}, l.dropWhile wsChar = [] → AllWS l = true := by
  intro l
  induction l with
  | nil => intro _; rfl
  | cons c cs ih =>
    intro h
    rw [List.dropWhile_cons] at h
    by_cases hc : wsChar c = true
    · rw [if_pos hc] at h
      simp only [AllWS, List.all_cons, hc, Bool.true_and]
      exact ih h
    · rw [if_neg hc] at h
      exact absurd h (List.cons_ne_nil c cs)

theorem dropWhile_append_left {x : List Char} (r : List Char)
    (h : x.dropWhile wsChar ≠ []) :
    (x ++ r).dropWhile wsChar = x.dropWhile wsChar ++ r := by
  induction x with
  | nil => exact absurd rfl h
  | cons c cs ih =>
    rw [List.cons_append, List.dropWhile_cons, List.dropWhile_cons]
    by_cases hc : wsChar c = true
    · rw [if_pos hc, if_pos hc]
      rw [List.dropWhile_cons, if_pos hc] at h
      exact ih h
    · rw [if_neg hc, if_neg hc, List.cons_append]

theorem pyStrip_eq_nil_of_ws {l : List Char} (h : AllWS l = true) : pyStrip l = [] := by
  unfold pyStrip
  rw [dropWhile_eq_nil_of_ws h]
  rfl

theorem pyStrip_pad {l r : List Char} (x : List Char)
    (hl : AllWS l = true) (hr : AllWS r = true) :
    pyStrip (l ++ (x ++ r)) = pyStrip x := by
  unfold pyStrip
  rw [dropWhile_append_ws (x ++ r) hl]
  by_cases hx : x.dropWhile wsChar = []
  · have hxw : AllWS x = true := allWS_of_dropWhile_nil hx
    have hxr : AllWS (x ++ r) = true := by
      unfold AllWS at hxw hr ⊢
      rw [List.all_append, hxw, hr]
      rfl
    rw [dropWhile_eq_nil_of_ws hxr, hx]
  · rw [dropWhile_append_left r hx, List.reverse_append,
      dropWhile_append_ws _ (allWS_reverse hr)]

theorem strPadCase_norm {a b : List Char} (h : StrPadCase a b) :
    pyStrip (pyLower a) = pyStrip (pyLower b) := by
  obtain ⟨l₁, s₁, r₁, l₂, s₂, r₂, ha, hb, hl₁, hr₁, hl₂, hr₂, hcase⟩ := h
  subst ha
  subst hb
  simp only [pyLower, List.map_append, List.append_assoc]
  rw [pyStrip_pad _ (allWS_map_toLower hl₁) (allWS_map_toLower hr₁),
    pyStrip_pad _ (allWS_map_toLower hl₂) (allWS_map_toLower hr₂)]
  have hc2 : List.map Char.toLower s₁ = List.map Char.toLower s₂ := hcase
  exact congrArg pyStrip hc2

theorem fieldEquiv_norm {a b : Val} (h : FieldEquiv a b) : norm a = norm b := by
  cases a with
  | na =>
    cases b with
    | na => rfl
    | str s =>
      have h' : AllWS s = true := h
      show ([] : List Char) = pyStrip (pyLower s)
      rw [show pyLower s = s from pyLower_of_ws h', pyStrip_eq_nil_of_ws h']
    | int n => exact h.elim
  | str s =>
    cases b with
    | na =>
      have h' : AllWS s = true := h
      show pyStrip (pyLower s) = ([] : List Char)
      rw [show pyLower s = s from pyLower_of_ws h', pyStrip_eq_nil_of_ws h']
    | str t => exact strPadCase_norm h
    | int n => exact strPadCase_norm h
  | int m =>
    cases b with
    | na => exact h.elim
    | str t => exact strPadCase_norm h
    | int n =>
      have h' : m = n := h
      rw [h']

/-- C2 amended: two records identical up to letter case, surrounding
whitespace, missing-versus-blank fields, and an integer versus the exact
decimal text of that integer, yield the same canonical key and hence the
same content hash; differing numeric formatting of the same value, such as
12 against 12.0, is not identified (see the counterexample). -/
theorem claim_C2_amended (H : List Char → String) (r s : Row) (h : RecordEquiv r s) :
    row_to_string r = row_to_string s ∧ hash_row H r = hash_row H s := by
  obtain ⟨h1, h2, h3⟩ := h
  have hkey : row_to_string r = row_to_string s := by
    unfold row_to_string
    rw [fieldEquiv_norm h1, fieldEquiv_norm h2, fieldEquiv_norm h3]
  exact ⟨hkey, congrArg H hkey⟩

theorem claim_C2_witness :
    row_to_string rowVogueA = row_to_string rowVogueB
    ∧ hash_row String.mk rowVogueA = hash_row String.mk rowVogueB :=
  claim_C2_amended String.mk rowVogueA rowVogueB
    ⟨⟨[], "Vogue".toList, [], [], "vogue".toList, [],
        by decide, by decide, by decide, by decide, by decide, by decide, rfl⟩,
     ⟨[], "12".toList, [], [' '], "12".toList, [' '],
        by decide, by decide, by decide, by decide, by decide, by decide, rfl⟩,
     ⟨[], "2023".toList, [], [], "2023".toList, [],
        by decide, by decide, by decide, by decide, by decide, by decide, rfl⟩⟩

end Labels
